import Mathlib

/-!
Verification of the matching-and-event-study estimation engine of the
alphafold_cleaning repository (scripts `01_cem_matching.py`,
`02_semester_aggregation.py`, `03_event_study.py`) against its
natural-language specification.

The Python code is shallowly embedded: pandas dataframes become lists of
structures, monetary-free numeric columns become `ℚ` (the pipeline's inputs
are integer counts and ratios of them, so every quantity the scripts compute
is rational except where a square root is taken; those places carry the
square of the source's value, which is zero, positive or missing exactly
when the source's value is, and a thin `Real.sqrt` layer recovers the
reported number).  External libraries (statsmodels' OLS solver, numpy's
random generator) are modelled as explicit parameters.
-/

set_option maxRecDepth 10000

namespace AFC

/-! ### List helpers shared by the embeddings

`uniqueFirst` is pandas `Series.unique` / numpy first-occurrence
deduplication: it keeps the first occurrence of each value, in order of
appearance.  `sortedUnique` is Python `sorted(series.unique())`.
-/

def uniqueFirstAux {α : Type} [DecidableEq α] (seen : List α) : List α → List α
  | [] => []
  | x :: t =>
    if x ∈ seen then uniqueFirstAux seen t
    else x :: uniqueFirstAux (x :: seen) t

def uniqueFirst {α : Type} [DecidableEq α] (l : List α) : List α :=
  uniqueFirstAux [] l

theorem mem_uniqueFirstAux {α : Type} [DecidableEq α] {a : α} :
    ∀ {l seen : List α}, a ∈ uniqueFirstAux seen l ↔ a ∈ l ∧ a ∉ seen
  | [], seen => by simp [uniqueFirstAux]
  | x :: t, seen => by
    by_cases hx : x ∈ seen
    · rw [uniqueFirstAux, if_pos hx, mem_uniqueFirstAux]
      constructor
      · exact fun ⟨ht, hs⟩ => ⟨List.mem_cons_of_mem x ht, hs⟩
      · rintro ⟨hc, hs⟩
        rcases List.mem_cons.mp hc with h | h
        · exact absurd (h ▸ hx) hs
        · exact ⟨h, hs⟩
    · rw [uniqueFirstAux, if_neg hx, List.mem_cons, mem_uniqueFirstAux]
      by_cases hax : a = x
      · subst hax; simp [hx]
      · simp [hax, List.mem_cons]
        try tauto

theorem mem_uniqueFirst {α : Type} [DecidableEq α] {a : α} {l : List α} :
    a ∈ uniqueFirst l ↔ a ∈ l := by
  rw [uniqueFirst, mem_uniqueFirstAux]; simp

theorem nodup_uniqueFirstAux {α : Type} [DecidableEq α] :
    ∀ (l seen : List α), (uniqueFirstAux seen l).Nodup
  | [], _ => List.nodup_nil
  | x :: t, seen => by
    by_cases hx : x ∈ seen
    · rw [uniqueFirstAux, if_pos hx]; exact nodup_uniqueFirstAux t seen
    · rw [uniqueFirstAux, if_neg hx]
      refine List.nodup_cons.mpr ⟨fun hmem => ?_, nodup_uniqueFirstAux t (x :: seen)⟩
      exact (mem_uniqueFirstAux.mp hmem).2 (List.mem_cons_self x seen)

theorem nodup_uniqueFirst {α : Type} [DecidableEq α] (l : List α) :
    (uniqueFirst l).Nodup :=
  nodup_uniqueFirstAux l []

def sortedUnique (l : List Nat) : List Nat :=
  (uniqueFirst l).insertionSort (· ≤ ·)

theorem mem_sortedUnique {a : Nat} {l : List Nat} :
    a ∈ sortedUnique l ↔ a ∈ l := by
  unfold sortedUnique
  rw [List.mem_insertionSort, mem_uniqueFirst]

theorem nodup_sortedUnique (l : List Nat) : (sortedUnique l).Nodup :=
  ((List.perm_insertionSort _ _).nodup_iff).mpr (nodup_uniqueFirst l)

def sortedUniqueInt (l : List Int) : List Int :=
  (uniqueFirst l).insertionSort (· ≤ ·)

theorem mem_sortedUniqueInt {a : Int} {l : List Int} :
    a ∈ sortedUniqueInt l ↔ a ∈ l := by
  unfold sortedUniqueInt
  rw [List.mem_insertionSort, mem_uniqueFirst]

/-- Mean of a list of rationals; pandas mean of a nonempty numeric series.
(On `[]` it is `0/0 = 0`; the embeddings only apply it to nonempty lists.) -/
def meanQ (l : List ℚ) : ℚ := l.sum / l.length

/-! ### Monthly panel rows and pre-treatment features
(`01_cem_matching.py`, `compute_pre_treatment_features`, lines 81-126)

A `PanelRow` is one gene-month observation after `create_time_variables`:
`ym_seq` is the sequential month index, `treated` is the gene-level
indicator `num_deposits == 0` (time-invariant), and the four outcome
columns are the matching covariates' sources.  Metadata columns
(`average_plddt`, `gene_name`, `protein_id`) play no role in any claim and
are omitted.
-/

structure PanelRow where
  gene : Nat
  ymSeq : Int
  treated : Bool
  nPapers : ℚ
  nNewcomer : ℚ
  nVeteran : ℚ
  nTop10 : ℚ
  deriving DecidableEq, Repr

/-- Rows strictly before the treatment month:
`pre_df = df[df['ym_seq'] < treatment_seq]` (line 86). -/
def preRows (df : List PanelRow) (treatmentSeq : Int) : List PanelRow :=
  df.filter (fun r => r.ymSeq < treatmentSeq)

/-- Sample variance with `ddof = 1` (pandas `std` squared): `none` when the
series has fewer than two observations, exactly when pandas `std` is `NaN`.
The source stores the square root of this; we carry the square, which is
missing/zero/positive exactly when the source's standard deviation is. -/
def sampleVarQ (l : List ℚ) : Option ℚ :=
  if l.length ≤ 1 then none
  else some (((l.map (fun x => (x - meanQ l) ^ 2)).sum) / (l.length - 1))

/-- Gene-level pre-treatment feature row (one per gene with at least one
pre-treatment month).  `preSdPapersSq` is the square of the source's
`pre_sd_papers`.  `treated` is merged in from the full panel
(`gene_meta`, lines 107-115, `'treated': 'first'`). -/
structure GeneFeat where
  gene : Nat
  preMeanPapers : ℚ
  preSdPapersSq : ℚ
  preMeanNewcom : ℚ
  preMeanVeteran : ℚ
  preMeanTop10 : ℚ
  treated : Bool
  deriving DecidableEq, Repr

/-- The `'treated': 'first'` aggregation of `gene_meta` over the FULL panel
(line 107): first row of the gene in the panel, `false` if absent. -/
def treatedFirst (df : List PanelRow) (g : Nat) : Bool :=
  ((df.find? (fun r => r.gene = g)).map (·.treated)).getD false

/-- Feature builder for one gene: the groupby-mean/std aggregation of
lines 89-104 restricted to that gene's pre-treatment rows. -/
def geneFeatOf (pre : List PanelRow) (meta : Nat → Bool) (g : Nat) : GeneFeat :=
  let rows := pre.filter (fun r => r.gene = g)
  { gene := g
    preMeanPapers := meanQ (rows.map (·.nPapers))
    preSdPapersSq := (sampleVarQ (rows.map (·.nPapers))).getD 0
    preMeanNewcom := meanQ (rows.map (·.nNewcomer))
    preMeanVeteran := meanQ (rows.map (·.nVeteran))
    preMeanTop10 := meanQ (rows.map (·.nTop10))
    treated := meta g }

/-- Embedding of `compute_pre_treatment_features(df, treatment_seq)`
(lines 81-126).  The groupby on the filtered frame produces one row per
gene having at least one pre-treatment row (keys sorted, as pandas groupby
sorts); `pre_sd_papers` of a single-month gene is `NaN`, filled with `0`
(line 104); gene-level metadata (`treated`) is taken as the first value
over the FULL panel and left-joined onto the feature rows (lines 107-115),
which preserves exactly the feature rows.  The `fillna(0)` loop on the
mean columns (lines 118-120) is a no-op, since a mean over a nonempty
group of rational counts is never missing. -/
def compute_pre_treatment_features (df : List PanelRow) (treatmentSeq : Int) :
    List GeneFeat :=
  let pre := preRows df treatmentSeq
  (sortedUnique (pre.map (·.gene))).map (geneFeatOf pre (treatedFirst df))

/-- Projection to the five pre-treatment feature columns (and the gene id),
dropping the metadata merged in from the full panel. -/
def featOnly (e : GeneFeat) : Nat × ℚ × ℚ × ℚ × ℚ × ℚ :=
  (e.gene, e.preMeanPapers, e.preSdPapersSq, e.preMeanNewcom,
   e.preMeanVeteran, e.preMeanTop10)

theorem featOnly_geneFeatOf (pre : List PanelRow) (m₁ m₂ : Nat → Bool) (g : Nat) :
    featOnly (geneFeatOf pre m₁ g) = featOnly (geneFeatOf pre m₂ g) := rfl

theorem length_filter_eq_one_of_nodup {g : Nat} :
    ∀ {l : List Nat}, l.Nodup → g ∈ l →
      (l.filter (fun x => x = g)).length = 1 := by
  intro l
  induction l with
  | nil => intro _ h; cases h
  | cons a t ih =>
    intro hnd hmem
    rcases List.nodup_cons.mp hnd with ⟨ha, hndt⟩
    by_cases hag : a = g
    · subst hag
      have ht : t.filter (fun x => x = a) = [] := by
        apply List.filter_eq_nil_iff.mpr
        intro x hx
        simp only [decide_eq_true_eq]
        exact fun hxa => ha (hxa ▸ hx)
      simp [List.filter_cons, ht]
    · have hgt : g ∈ t := by
        rcases List.mem_cons.mp hmem with h | h
        · exact absurd h.symm hag
        · exact h
      simp only [List.filter_cons, hag]
      simpa [hag] using ih hndt hgt

/-- C5 — Pre-period exclusion (noninterference): the five pre-treatment
feature columns of `compute_pre_treatment_features` (and the set of genes
carrying them) are a function of the panel rows with
`ym_seq < treatment_period` alone: two panels agreeing on those rows get
identical feature values.  No row with `ym_seq ≥ treatment_period` enters
the means or standard deviations (only the gene-level `treated`/metadata
columns, which the claim sets aside as time-invariant, read the full
panel). -/
theorem C5_pre_period_noninterference (df₁ df₂ : List PanelRow) (T : Int)
    (h : preRows df₁ T = preRows df₂ T) :
    (compute_pre_treatment_features df₁ T).map featOnly
      = (compute_pre_treatment_features df₂ T).map featOnly := by
  unfold compute_pre_treatment_features
  rw [List.map_map, List.map_map, h]
  exact List.map_congr_left fun g _ =>
    featOnly_geneFeatOf (preRows df₂ T) (treatedFirst df₁) (treatedFirst df₂) g

/-- Concrete pair of panels for the C5 witness: they agree on every row
before month 3 and differ (in every outcome) at month 5. -/
def dfW1 : List PanelRow := [⟨1, 1, true, 2, 0, 1, 0⟩, ⟨1, 5, true, 9, 9, 9, 9⟩]

def dfW2 : List PanelRow := [⟨1, 1, true, 2, 0, 1, 0⟩, ⟨1, 5, true, 7, 7, 7, 7⟩]

theorem C5_witness :
    preRows dfW1 3 = preRows dfW2 3 ∧
      (compute_pre_treatment_features dfW1 3).map featOnly
        = (compute_pre_treatment_features dfW2 3).map featOnly :=
  ⟨by decide, C5_pre_period_noninterference dfW1 dfW2 3 (by decide)⟩

/-- Concrete panel for C7: gene 1 has only a post-treatment row
(`ym_seq = 5 ≥ 3`), gene 2 has exactly one pre-treatment row. -/
def dfC7 : List PanelRow := [⟨1, 5, true, 3, 0, 0, 0⟩, ⟨2, 1, false, 1, 0, 0, 0⟩]

/-- C7 — counterexample: the claim says the output has exactly one row per
`gene_id` present in the input panel, zero-filled when the gene has no
pre-treatment months.  In the code the groupby runs on the filtered frame
and the metadata merge is a LEFT join onto it, so gene 1 (present in the
panel, no pre-treatment rows) has no output row at all at
`treatment_period = 3`. -/
theorem C7_counterexample :
    (1 ∈ dfC7.map (·.gene)) ∧
      ∀ e ∈ compute_pre_treatment_features dfC7 3, e.gene ≠ 1 := by decide

/-- C7 — amended: `compute_pre_treatment_features` returns exactly one row
per gene having at least one pre-treatment month (a gene with zero
pre-treatment months is dropped from the output, not zero-filled), and for
a gene with exactly one pre-treatment month the standard-deviation feature
is 0 rather than missing (`preSdPapersSq` carries the square of the
source's `pre_sd_papers`, which vanishes exactly when it does). -/
theorem C7_amended (df : List PanelRow) (T : Int) (g : Nat) :
    ((∃ e ∈ compute_pre_treatment_features df T, e.gene = g)
        ↔ g ∈ (preRows df T).map (·.gene))
    ∧ (g ∈ (preRows df T).map (·.gene) →
        ((compute_pre_treatment_features df T).filter
          (fun e => e.gene = g)).length = 1)
    ∧ (((preRows df T).filter (fun r => r.gene = g)).length = 1 →
        ∀ e ∈ compute_pre_treatment_features df T, e.gene = g →
          e.preSdPapersSq = 0) := by
  refine ⟨?_, ?_, ?_⟩
  · unfold compute_pre_treatment_features
    constructor
    · rintro ⟨e, he, hg⟩
      rcases List.mem_map.mp he with ⟨x, hx, rfl⟩
      have : x = g := hg
      exact this ▸ mem_sortedUnique.mp hx
    · intro hg
      exact ⟨geneFeatOf (preRows df T) (treatedFirst df) g,
        List.mem_map.mpr ⟨g, mem_sortedUnique.mpr hg, rfl⟩, rfl⟩
  · intro hg
    unfold compute_pre_treatment_features
    rw [List.filter_map]
    have hcomp :
        ((fun e : GeneFeat => decide (e.gene = g)) ∘
            geneFeatOf (preRows df T) (treatedFirst df))
          = fun x => decide (x = g) := by
      funext x; rfl
    rw [List.length_map, hcomp]
    exact length_filter_eq_one_of_nodup
      (nodup_sortedUnique _) (mem_sortedUnique.mpr hg)
  · intro hone e he hg
    rcases List.mem_map.mp he with ⟨x, _hx, rfl⟩
    have hxg : x = g := hg
    subst hxg
    show (sampleVarQ (((preRows df T).filter (fun r => r.gene = x)).map
      (·.nPapers))).getD 0 = 0
    rw [sampleVarQ, if_pos]
    · rfl
    · rw [List.length_map, hone]

theorem C7_witness :
    (((compute_pre_treatment_features dfC7 3).filter
        (fun e => e.gene = 2)).length = 1)
      ∧ ∀ e ∈ compute_pre_treatment_features dfC7 3, e.gene = 2 →
          e.preSdPapersSq = 0 :=
  ⟨(C7_amended dfC7 3 2).2.1 (by decide), (C7_amended dfC7 3 2).2.2 (by decide)⟩

/-! ### Quantile binning (`01_cem_matching.py`, lines 147-156)

The source bins each matching covariate with
`pd.qcut(col, q=n_bins, labels=False, duplicates='drop')` inside a
`try/except ValueError` whose handler re-bins with equal-width
`pd.cut(col, bins=min(n_bins, col.nunique()), labels=False)`, and then
fills missing codes with 0.

Embedded `qcut` semantics (pandas `_bins_to_cuts` with `labels=False`,
`right=True`, `include_lowest=True`, `duplicates='drop'`): the bin edges
are the `n_bins+1` quantiles of the column at probabilities `j/n_bins`
(numpy linear interpolation on the sorted values), deduplicated keeping
first occurrences; a value's id is `searchsorted(edges, x, side='left')`
(the number of edges strictly below `x`), forced to 1 when `x` equals the
first edge; ids of 0 or `len(edges)` are missing (`NaN`); the code is
`id - 1`.  With `duplicates='drop'` this procedure never raises on a
numeric column — duplicate boundaries are dropped silently, and a constant
column yields one edge and hence all-missing codes — so the `except
ValueError` fallback is dead code; `binColumn` embeds the reachable path,
and the fallback's equal-width binning appears only in `binColumnClaim`,
the rendering of the claim's words.
-/

/-- Linear-interpolation quantile of the sorted list `s` at probability
`num/den` (numpy default interpolation): with `h = (num/den)*(len-1)`
encoded as `num = j*(len-1)`, `den = n`, it returns
`s[⌊h⌋] + (h-⌊h⌋)*(s[⌊h⌋+1]-s[⌊h⌋])`. -/
def interpAt (s : List ℚ) (num den : Nat) : ℚ :=
  let i := num / den
  let r := num % den
  if i + 1 < s.length then
    s.getD i 0 + ((r : ℚ) / (den : ℚ)) * (s.getD (i + 1) 0 - s.getD i 0)
  else s.getD i 0

def sortQ (xs : List ℚ) : List ℚ := xs.insertionSort (· ≤ ·)

/-- The raw quantile edges `np.linspace(0, 1, n+1)`-quantiles of `xs`. -/
def quantileEdges (xs : List ℚ) (n : Nat) : List ℚ :=
  let s := sortQ xs
  (List.range (n + 1)).map (fun j => interpAt s (j * (s.length - 1)) n)

/-- Code assignment of `pd.qcut(..., labels=False, duplicates='drop')`
given the deduplicated edges: `none` is a `NaN` code. -/
def qcutDropCode (edges : List ℚ) (x : ℚ) : Option ℤ :=
  let ids : Nat :=
    if edges.head? = some x then 1 else (edges.filter (· < x)).length
  if ids = 0 ∨ ids = edges.length then none else some ((ids : ℤ) - 1)

/-- Embedding of one covariate's binning in `coarsened_exact_matching`
(lines 149-156): qcut with duplicate edges dropped, missing codes filled
with 0 (`fillna(0)`, line 156). -/
def binColumn (xs : List ℚ) (n : Nat) : List ℤ :=
  let e := uniqueFirst (quantileEdges xs n)
  xs.map (fun x => (qcutDropCode e x).getD 0)

/-- Modelled from the claim's words: equal-width binning over `k` bins
(`pd.cut(col, bins=k, labels=False)`): edges evenly spaced between the
column minimum and maximum, intervals right-closed with the minimum
included in bin 0. -/
def equalWidthCodes (xs : List ℚ) (k : Nat) : List ℤ :=
  let s := sortQ xs
  let mn := s.head?.getD 0
  let mx := s.getLast?.getD 0
  let edges :=
    (List.range (k + 1)).map (fun j => mn + ((j : ℚ) / (k : ℚ)) * (mx - mn))
  xs.map (fun x =>
    if x = mn then 0 else ((edges.filter (· < x)).length : ℤ) - 1)

/-- Modelled from the claim's words: whenever quantile binning into
`n_bins` groups yields fewer than `n_bins` distinct bins because of
duplicate quantile boundaries, bin by equal width over
`min(n_bins, nunique)` bins instead. -/
def binColumnClaim (xs : List ℚ) (n : Nat) : List ℤ :=
  if (uniqueFirst (quantileEdges xs n)).length < n + 1 then
    equalWidthCodes xs (min n (uniqueFirst xs).length)
  else binColumn xs n

/-- Column witnessing C6: with 10 requested quantile bins the edges of
`[0,0,0,1,2,3]` collapse to `[0, 1/2, 1, 3/2, 2, 5/2, 3]`. -/
def xsC6 : List ℚ := [0, 0, 0, 1, 2, 3]

/-- C6 — counterexample: on `[0,0,0,1,2,3]` with `n_bins = 10`, quantile
binning collapses below 10 distinct bins, yet the code keeps the deduped
quantile bins (codes `[0,0,0,1,3,5]`); the claim's equal-width fallback
over `min(10, 4)` bins would give `[0,0,0,1,2,3]`. -/
theorem C6_counterexample :
    (uniqueFirst (quantileEdges xsC6 10)).length < 10 + 1 ∧
      binColumn xsC6 10 ≠ binColumnClaim xsC6 10 := by
  with_unfolding_all decide

theorem getD_mem_of_lt {l : List ℚ} {i : Nat} (h : i < l.length) :
    l.getD i 0 ∈ l := by
  rw [List.getD_eq_getElem l 0 h]
  exact List.getElem_mem h

theorem sortQ_perm (xs : List ℚ) : List.Perm (sortQ xs) xs :=
  List.perm_insertionSort _ xs

theorem mem_sortQ {x : ℚ} {xs : List ℚ} : x ∈ sortQ xs ↔ x ∈ xs :=
  (sortQ_perm xs).mem_iff

theorem length_sortQ (xs : List ℚ) : (sortQ xs).length = xs.length :=
  (sortQ_perm xs).length_eq

theorem sortQ_sorted (xs : List ℚ) : (sortQ xs).Sorted (· ≤ ·) :=
  List.sorted_insertionSort _ xs

theorem sorted_head_le {s : List ℚ} (hs : s.Sorted (· ≤ ·)) {x : ℚ}
    (hx : x ∈ s) : s.getD 0 0 ≤ x := by
  cases s with
  | nil => cases hx
  | cons a t =>
    rcases List.mem_cons.mp hx with rfl | hxt
    · exact le_refl _
    · exact List.rel_of_sorted_cons hs x hxt

theorem sorted_le_last {s : List ℚ} (hs : s.Sorted (· ≤ ·)) {x : ℚ}
    (hx : x ∈ s) : x ≤ s.getD (s.length - 1) 0 := by
  induction s with
  | nil => cases hx
  | cons a t ih =>
    cases t with
    | nil =>
      rcases List.mem_cons.mp hx with rfl | h
      · exact le_refl _
      · cases h
    | cons b t' =>
      have hlen : (a :: b :: t').length - 1 = (b :: t').length := rfl
      have hgd : (a :: b :: t').getD ((a :: b :: t').length - 1) 0
          = (b :: t').getD ((b :: t').length - 1) 0 := by
        rw [hlen]
        exact List.getD_cons_succ
      rw [hgd]
      rcases List.mem_cons.mp hx with rfl | hxt
      · have hmem : (b :: t').getD ((b :: t').length - 1) 0 ∈ b :: t' :=
          getD_mem_of_lt (by simp)
        exact List.rel_of_sorted_cons hs _ hmem
      · exact ih hs.of_cons hxt

theorem interpAt_zero (s : List ℚ) (den : Nat) :
    interpAt s 0 den = s.getD 0 0 := by
  unfold interpAt
  simp [Nat.zero_div, Nat.zero_mod]

theorem interpAt_last {s : List ℚ} {n : Nat} (hn : 0 < n)
    (hs : 0 < s.length) :
    interpAt s (n * (s.length - 1)) n = s.getD (s.length - 1) 0 := by
  unfold interpAt
  have hi : n * (s.length - 1) / n = s.length - 1 :=
    Nat.mul_div_cancel_left _ hn
  rw [hi, if_neg (by omega)]

theorem interpAt_const {s : List ℚ} {c : ℚ} (hc : ∀ y ∈ s, y = c)
    {num den : Nat} (hi : num / den < s.length) : interpAt s num den = c := by
  unfold interpAt
  by_cases h : num / den + 1 < s.length
  · rw [if_pos h]
    rw [hc _ (getD_mem_of_lt hi), hc _ (getD_mem_of_lt h)]
    ring
  · rw [if_neg h, hc _ (getD_mem_of_lt hi)]

theorem quantileEdges_all_const {xs : List ℚ} {c : ℚ}
    (hc : ∀ y ∈ xs, y = c) (hne : xs ≠ []) (n : Nat) :
    ∀ e ∈ quantileEdges xs n, e = c := by
  intro e he
  unfold quantileEdges at he
  rcases List.mem_map.mp he with ⟨j, hj, rfl⟩
  have hjn : j ≤ n := Nat.lt_succ_iff.mp (List.mem_range.mp hj)
  have hlen : 0 < (sortQ xs).length := by
    rw [length_sortQ]
    exact List.length_pos.mpr hne
  have hsc : ∀ y ∈ sortQ xs, y = c := fun y hy => hc y (mem_sortQ.mp hy)
  apply interpAt_const hsc
  rcases Nat.eq_zero_or_pos n with rfl | hn
  · simpa [Nat.div_zero] using hlen
  · have h1 : j * ((sortQ xs).length - 1) ≤ n * ((sortQ xs).length - 1) :=
      Nat.mul_le_mul_right _ hjn
    have h2 : j * ((sortQ xs).length - 1) / n ≤ (sortQ xs).length - 1 := by
      calc j * ((sortQ xs).length - 1) / n
          ≤ n * ((sortQ xs).length - 1) / n := Nat.div_le_div_right h1
        _ = (sortQ xs).length - 1 := Nat.mul_div_cancel_left _ hn
    omega

theorem uniqueFirstAux_eq_nil {α : Type} [DecidableEq α] :
    ∀ {l seen : List α}, (∀ y ∈ l, y ∈ seen) → uniqueFirstAux seen l = []
  | [], _ => fun _ => rfl
  | x :: t, seen => fun h => by
    rw [uniqueFirstAux, if_pos (h x (List.mem_cons_self x t))]
    exact uniqueFirstAux_eq_nil fun y hy => h y (List.mem_cons_of_mem x hy)

theorem uniqueFirst_all_const {l : List ℚ} {c : ℚ}
    (hc : ∀ y ∈ l, y = c) (hne : l ≠ []) : uniqueFirst l = [c] := by
  cases l with
  | nil => exact absurd rfl hne
  | cons x t =>
    have hx : x = c := hc x (List.mem_cons_self x t)
    subst hx
    rw [uniqueFirst, uniqueFirstAux, if_neg (List.not_mem_nil x)]
    rw [uniqueFirstAux_eq_nil]
    intro y hy
    rw [hc y (List.mem_cons_of_mem x hy)]
    exact List.mem_cons_self x []

theorem uniqueFirst_cons_headq {x : ℚ} {t : List ℚ} :
    (uniqueFirst (x :: t)).head? = some x := by
  rw [uniqueFirst, uniqueFirstAux, if_neg (List.not_mem_nil x)]
  rfl

theorem length_filter_lt_of_not {l : List ℚ} {p : ℚ → Bool} {a : ℚ}
    (ha : a ∈ l) (hpa : p a = false) : (l.filter p).length < l.length := by
  induction l with
  | nil => cases ha
  | cons b t ih =>
    rcases List.mem_cons.mp ha with rfl | hat
    · have hle := List.length_filter_le p t
      rw [List.filter_cons, hpa]
      simp only [Bool.false_eq_true, if_false, List.length_cons]
      omega
    · rw [List.filter_cons]
      by_cases hpb : p b = true
      · simpa [hpb] using Nat.succ_lt_succ (ih hat)
      · rw [if_neg (by simpa using hpb)]
        exact Nat.lt_succ_of_lt (ih hat)

theorem two_le_length_of_mem_ne {l : List ℚ} {a b : ℚ}
    (ha : a ∈ l) (hb : b ∈ l) (hab : a ≠ b) : 2 ≤ l.length := by
  cases l with
  | nil => cases ha
  | cons x t =>
    cases t with
    | nil =>
      rcases List.mem_cons.mp ha with rfl | h
      · rcases List.mem_cons.mp hb with h' | h'
        · exact absurd h'.symm hab
        · cases h'
      · cases h
    | cons y t' =>
      simp only [List.length_cons]
      omega

theorem map_eq_replicate_zero {l : List ℚ} {f : ℚ → ℤ}
    (h : ∀ x ∈ l, f x = 0) : l.map f = List.replicate l.length 0 := by
  induction l with
  | nil => rfl
  | cons a t ih =>
    rw [List.map_cons, h a (List.mem_cons_self a t), List.length_cons,
      List.replicate_succ,
      ih fun x hx => h x (List.mem_cons_of_mem a hx)]

/-- C6 — amended: with `duplicates='drop'`, `pd.qcut` does not raise on a
numeric column, so the equal-width re-binning in the `except ValueError`
handler never runs; when duplicate quantile boundaries collapse the bin
count below `n_bins` the covariate keeps the deduplicated quantile bins.
A constant column is the degenerate case: its edges collapse to a single
point, every code is missing, and the `fillna(0)` default makes every code
0 (first conjunct).  A column with at least two distinct values never
produces a missing code at all — every value lands in a deduped quantile
bin, so the `fillna(0)` default is vacuous there (second conjunct). -/
theorem C6_amended (xs : List ℚ) (n : Nat) :
    (xs ≠ [] → (∀ a ∈ xs, ∀ b ∈ xs, a = b) →
        binColumn xs n = List.replicate xs.length 0)
    ∧ (2 ≤ n → (∃ a ∈ xs, ∃ b ∈ xs, a ≠ b) →
        ∀ x ∈ xs, (qcutDropCode (uniqueFirst (quantileEdges xs n)) x).isSome) := by
  constructor
  · intro hne hconst
    obtain ⟨x₀, hx₀⟩ := List.exists_mem_of_ne_nil xs hne
    have hc : ∀ y ∈ xs, y = x₀ := fun y hy => hconst y hy x₀ hx₀
    have hedges : ∀ e ∈ quantileEdges xs n, e = x₀ :=
      quantileEdges_all_const hc hne n
    have hqe : quantileEdges xs n ≠ [] := by
      unfold quantileEdges
      simp [List.range_succ]
    have huf : uniqueFirst (quantileEdges xs n) = [x₀] :=
      uniqueFirst_all_const hedges hqe
    unfold binColumn
    rw [huf]
    apply map_eq_replicate_zero
    intro x hx
    rw [hc x hx]
    unfold qcutDropCode
    simp
  · intro hn ⟨a, ha, b, hb, hab⟩ x hx
    set s := sortQ xs with hsdef
    have hsne : 0 < s.length := by
      rw [hsdef, length_sortQ]
      exact List.length_pos.mpr (List.ne_nil_of_mem hx)
    set mn := s.getD 0 0 with hmndef
    set mx := s.getD (s.length - 1) 0 with hmxdef
    have hs : s.Sorted (· ≤ ·) := sortQ_sorted xs
    have hbound : ∀ y ∈ xs, mn ≤ y ∧ y ≤ mx := fun y hy =>
      ⟨sorted_head_le hs (mem_sortQ.mpr hy), sorted_le_last hs (mem_sortQ.mpr hy)⟩
    have hmnmx : mn ≠ mx := by
      intro heq
      rcases hbound a ha with ⟨h1, h2⟩
      rcases hbound b hb with ⟨h3, h4⟩
      rw [heq] at h1 h3
      exact hab (le_antisymm (le_trans h2 h3) (le_trans h4 h1))
    have hedges_cons : quantileEdges xs n = mn ::
        (List.map (fun j => interpAt s (Nat.succ j * (s.length - 1)) n)
          (List.range n)) := by
      unfold quantileEdges
      rw [List.range_succ_eq_map, List.map_cons, List.map_map]
      rw [← hsdef]
      congr 1
      rw [Nat.zero_mul, interpAt_zero, hmndef]
    have hmx_mem : mx ∈ quantileEdges xs n := by
      unfold quantileEdges
      rw [← hsdef]
      refine List.mem_map.mpr ⟨n, List.mem_range.mpr (Nat.lt_succ_self n), ?_⟩
      exact interpAt_last (lt_of_lt_of_le (by norm_num) hn) hsne
    set ue := uniqueFirst (quantileEdges xs n) with huedef
    have hue_head : ue.head? = some mn := by
      rw [huedef, hedges_cons]
      exact uniqueFirst_cons_headq
    have hmn_ue : mn ∈ ue := by
      rcases hue_list : ue with _ | ⟨u, ut⟩
      · rw [hue_list] at hue_head; cases hue_head
      · rw [hue_list] at hue_head
        have : u = mn := by simpa using hue_head
        rw [this]
        exact List.mem_cons_self mn ut
    have hmx_ue : mx ∈ ue := mem_uniqueFirst.mpr hmx_mem
    have hue2 : 2 ≤ ue.length := two_le_length_of_mem_ne hmn_ue hmx_ue hmnmx
    unfold qcutDropCode
    by_cases hhead : ue.head? = some x
    · rw [if_pos hhead, if_neg (by omega)]
      rfl
    · rw [if_neg hhead]
      have hxmn : x ≠ mn := by
        intro heq
        rw [heq] at hhead
        exact hhead hue_head
      have hmnx : mn < x :=
        lt_of_le_of_ne (hbound x hx).1 (Ne.symm hxmn)
      have hpos : 0 < (ue.filter (· < x)).length := by
        apply List.length_pos.mpr
        intro hnil
        have : mn ∈ ue.filter (· < x) :=
          List.mem_filter.mpr ⟨hmn_ue, by simpa using hmnx⟩
        rw [hnil] at this
        cases this
      have hlt : (ue.filter (· < x)).length < ue.length := by
        apply length_filter_lt_of_not hmx_ue
        simpa using not_lt.mpr (hbound x hx).2
      rw [if_neg (by omega)]
      rfl

theorem C6_witness :
    binColumn [(5 : ℚ), 5] 10 = List.replicate 2 0 ∧
      (qcutDropCode (uniqueFirst (quantileEdges xsC6 10)) 2).isSome :=
  ⟨(C6_amended [(5 : ℚ), 5] 10).1 (by decide) (by with_unfolding_all decide),
    (C6_amended xsC6 10).2 (by norm_num)
      ⟨0, by decide, 1, by decide, by norm_num⟩ 2 (by decide)⟩

/-! ### Coarsened exact matching (`01_cem_matching.py`, lines 129-208)

Each of the five matching covariates (`match_vars`, in source order
`pre_mean_papers, pre_mean_newcom, pre_mean_veteran, pre_mean_top10,
pre_sd_papers`) is binned with `binColumn`; the stratum of a gene is the
tuple of its five bin codes (the source joins them into the string
`'c1_c2_c3_c4_c5'`, an injective encoding of the tuple, which we keep as
the list of codes).  Per-stratum treated/control counts come from the full
feature table; only genes whose stratum has `n_treated > 0` and
`n_control > 0` are retained; treated genes get weight 1, control genes
`n_treated/n_control`, and control weights are then rescaled by
`sum(treated weight)/sum(control weight)`.
-/

def matchCols (gf : List GeneFeat) (n : Nat) : List (List ℤ) :=
  [binColumn (gf.map (·.preMeanPapers)) n,
   binColumn (gf.map (·.preMeanNewcom)) n,
   binColumn (gf.map (·.preMeanVeteran)) n,
   binColumn (gf.map (·.preMeanTop10)) n,
   binColumn (gf.map (·.preSdPapersSq)) n]

/-- Row `i`'s stratum: the tuple of its five bin codes. -/
def cemCodes (gf : List GeneFeat) (n : Nat) : List (List ℤ) :=
  (List.range gf.length).map (fun i => (matchCols gf n).map (fun c => c.getD i 0))

def withCodes (gf : List GeneFeat) (n : Nat) : List (GeneFeat × List ℤ) :=
  gf.zip (cemCodes gf n)

/-- Number of treated genes in stratum `s` (`stratum_counts`, lines
163-167, `n_treated`). -/
def nTreatedIn (gf : List GeneFeat) (n : Nat) (s : List ℤ) : Nat :=
  ((withCodes gf n).filter (fun p => p.2 = s ∧ p.1.treated = true)).length

/-- Number of control genes in stratum `s` (`n_control = n_total - n_treated`). -/
def nControlIn (gf : List GeneFeat) (n : Nat) (s : List ℤ) : Nat :=
  ((withCodes gf n).filter (fun p => p.2 = s ∧ p.1.treated = false)).length

/-- Genes retained on common support (lines 169-178): those whose stratum
has at least one treated and at least one control gene. -/
def matchedPairs (gf : List GeneFeat) (n : Nat) : List (GeneFeat × List ℤ) :=
  (withCodes gf n).filter
    (fun p => 0 < nTreatedIn gf n p.2 ∧ 0 < nControlIn gf n p.2)

/-- Pre-rescaling CEM weight (lines 189-193): 1 for treated,
`n_treated/n_control` within the stratum for control. -/
def preWeight (gf : List GeneFeat) (n : Nat) (p : GeneFeat × List ℤ) : ℚ :=
  if p.1.treated then 1
  else (nTreatedIn gf n p.2 : ℚ) / (nControlIn gf n p.2 : ℚ)

def sumTreatedW (gf : List GeneFeat) (n : Nat) : ℚ :=
  (((matchedPairs gf n).filter (fun p => p.1.treated = true)).map
    (preWeight gf n)).sum

def sumControlW (gf : List GeneFeat) (n : Nat) : ℚ :=
  (((matchedPairs gf n).filter (fun p => p.1.treated = false)).map
    (preWeight gf n)).sum

structure MatchedGene where
  feat : GeneFeat
  stratum : List ℤ
  cemWeight : ℚ
  deriving DecidableEq, Repr

/-- Embedding of `coarsened_exact_matching(gene_features, n_bins)`
(lines 129-208): bin, stratify, keep common support, weight, and rescale
control weights by `sum_treated/sum_control` (lines 196-199).  The
function is total: a run with zero common-support strata returns the
empty list (no exception). -/
def coarsened_exact_matching (gf : List GeneFeat) (n : Nat) :
    List MatchedGene :=
  (matchedPairs gf n).map (fun p =>
    { feat := p.1
      stratum := p.2
      cemWeight :=
        if p.1.treated then preWeight gf n p
        else preWeight gf n p * (sumTreatedW gf n / sumControlW gf n) })

/-- C3 — common-support invariant: every gene retained by
`coarsened_exact_matching` carries the (unique, functionally assigned)
stratum of its bin-code tuple, and that stratum contains at least one
treated and at least one control gene; when no stratum contains both
treatment arms the function returns the empty matched set (it is total, so
no exception is possible). -/
theorem C3_common_support (gf : List GeneFeat) (n : Nat) :
    (∀ e ∈ coarsened_exact_matching gf n,
        0 < nTreatedIn gf n e.stratum ∧ 0 < nControlIn gf n e.stratum)
    ∧ ((∀ s : List ℤ, ¬(0 < nTreatedIn gf n s ∧ 0 < nControlIn gf n s)) →
        coarsened_exact_matching gf n = []) := by
  constructor
  · intro e he
    rcases List.mem_map.mp he with ⟨p, hp, rfl⟩
    have hpred := (List.mem_filter.mp hp).2
    simpa using of_decide_eq_true hpred
  · intro hno
    have hmp : matchedPairs gf n = [] := by
      unfold matchedPairs
      apply List.filter_eq_nil_iff.mpr
      intro p _
      simpa using hno p.2
    unfold coarsened_exact_matching
    rw [hmp]
    rfl

theorem filter_map_eq {α β : Type} (f : α → β) (p : β → Bool) (l : List α) :
    (l.map f).filter p = (l.filter (fun a => p (f a))).map f := by
  rw [List.filter_map]
  rfl

/-- C2 — weight balance law: on any gene-feature table where
`coarsened_exact_matching` returns a non-empty matched set, the sum of
`cem_weight` over treated genes equals the sum over control genes exactly
(in ℚ), thanks to the global rescaling of control weights by
`sum(treated)/sum(control)`. -/
theorem C2_weight_balance (gf : List GeneFeat) (n : Nat)
    (hne : coarsened_exact_matching gf n ≠ []) :
    (((coarsened_exact_matching gf n).filter
        (fun e => e.feat.treated = true)).map (·.cemWeight)).sum
      = (((coarsened_exact_matching gf n).filter
          (fun e => e.feat.treated = false)).map (·.cemWeight)).sum := by
  have hsupport : ∀ p ∈ matchedPairs gf n,
      0 < nTreatedIn gf n p.2 ∧ 0 < nControlIn gf n p.2 := by
    intro p hp
    simpa using of_decide_eq_true (List.mem_filter.mp hp).2
  -- the treated side sums the pre-rescaling weights (all equal to 1)
  have hT : (((coarsened_exact_matching gf n).filter
      (fun e => e.feat.treated = true)).map (·.cemWeight)).sum
      = sumTreatedW gf n := by
    unfold coarsened_exact_matching sumTreatedW
    rw [filter_map_eq, List.map_map]
    apply congrArg List.sum
    apply List.map_congr_left
    intro p hp
    have htr : p.1.treated = true := by
      simpa using (List.mem_filter.mp hp).2
    simp [Function.comp, htr]
  -- the control side is the pre-rescaling control sum times the factor
  have hC : (((coarsened_exact_matching gf n).filter
      (fun e => e.feat.treated = false)).map (·.cemWeight)).sum
      = sumControlW gf n * (sumTreatedW gf n / sumControlW gf n) := by
    unfold coarsened_exact_matching
    rw [filter_map_eq, List.map_map]
    have hstep : (((matchedPairs gf n).filter (fun p => p.1.treated = false)).map
        ((fun e : MatchedGene => e.cemWeight) ∘ (fun p : GeneFeat × List ℤ =>
          ({ feat := p.1, stratum := p.2,
             cemWeight := if p.1.treated then preWeight gf n p
               else preWeight gf n p * (sumTreatedW gf n / sumControlW gf n) }
             : MatchedGene)))).sum
        = (((matchedPairs gf n).filter (fun p => p.1.treated = false)).map
            (fun p => preWeight gf n p *
              (sumTreatedW gf n / sumControlW gf n))).sum := by
      apply congrArg List.sum
      apply List.map_congr_left
      intro p hp
      have htr : p.1.treated = false := by
        simpa using (List.mem_filter.mp hp).2
      simp [Function.comp, htr]
    rw [hstep, List.sum_map_mul_right]
    rfl
  -- the pre-rescaling control sum is positive, hence nonzero
  have hCpos : 0 < sumControlW gf n := by
    obtain ⟨e₀, he₀⟩ := List.exists_mem_of_ne_nil _ hne
    rcases List.mem_map.mp he₀ with ⟨p₀, hp₀, rfl⟩
    have hsup := hsupport p₀ hp₀
    -- the stratum of p₀ contains a control gene, which is itself retained
    have hctrl : ∃ q ∈ matchedPairs gf n,
        q.1.treated = false := by
      have hlen := hsup.2
      unfold nControlIn at hlen
      obtain ⟨q, hq⟩ := List.exists_mem_of_ne_nil _
        (List.ne_nil_of_length_pos hlen)
      have hqw : q ∈ withCodes gf n := (List.mem_filter.mp hq).1
      have hqpred : q.2 = p₀.2 ∧ q.1.treated = false := by
        simpa using of_decide_eq_true (List.mem_filter.mp hq).2
      refine ⟨q, List.mem_filter.mpr ⟨hqw, ?_⟩, hqpred.2⟩
      rw [hqpred.1]
      exact decide_eq_true (by exact ⟨hsup.1, hsup.2⟩)
    obtain ⟨q, hqm, hqc⟩ := hctrl
    unfold sumControlW
    apply List.sum_pos
    · intro x hx
      rcases List.mem_map.mp hx with ⟨p, hp, rfl⟩
      have hpm : p ∈ matchedPairs gf n := (List.mem_filter.mp hp).1
      have hptr : p.1.treated = false := by
        simpa using (List.mem_filter.mp hp).2
      have hps := hsupport p hpm
      unfold preWeight
      rw [if_neg (by simp [hptr])]
      apply div_pos
      · exact_mod_cast hps.1
      · exact_mod_cast hps.2
    · intro hnil
      have hqmem : preWeight gf n q ∈ ((matchedPairs gf n).filter
          (fun p => p.1.treated = false)).map (preWeight gf n) :=
        List.mem_map.mpr ⟨q, List.mem_filter.mpr
          ⟨hqm, by simp [hqc]⟩, rfl⟩
      rw [hnil] at hqmem
      cases hqmem
  rw [hT, hC, mul_div_assoc']
  rw [mul_comm, mul_div_assoc, div_self (ne_of_gt hCpos), mul_one]

/-- Tiny feature table with one treated and one control gene (identical,
hence sharing the single stratum) for the C2/C3 witnesses. -/
def gfW : List GeneFeat :=
  [⟨1, 0, 0, 0, 0, 0, true⟩, ⟨2, 0, 0, 0, 0, 0, false⟩]

/-- All-treated table: no stratum can contain both arms. -/
def gfT : List GeneFeat := [⟨1, 0, 0, 0, 0, 0, true⟩]

theorem nControlIn_all_treated {gf : List GeneFeat}
    (h : ∀ g ∈ gf, g.treated = true) (n : Nat) (s : List ℤ) :
    nControlIn gf n s = 0 := by
  unfold nControlIn
  rw [List.length_eq_zero]
  apply List.filter_eq_nil_iff.mpr
  intro p hp
  rcases p with ⟨g, c⟩
  have hg : g ∈ gf := (List.of_mem_zip hp).1
  simp [h g hg]

theorem C2_witness :
    (((coarsened_exact_matching gfW 10).filter
        (fun e => e.feat.treated = true)).map (·.cemWeight)).sum
      = (((coarsened_exact_matching gfW 10).filter
          (fun e => e.feat.treated = false)).map (·.cemWeight)).sum :=
  C2_weight_balance gfW 10 (by with_unfolding_all decide)

theorem C3_witness :
    (0 < nTreatedIn gfW 10 [0, 0, 0, 0, 0]
        ∧ 0 < nControlIn gfW 10 [0, 0, 0, 0, 0])
      ∧ coarsened_exact_matching gfT 10 = [] :=
  ⟨(C3_common_support gfW 10).1
      ⟨⟨1, 0, 0, 0, 0, 0, true⟩, [0, 0, 0, 0, 0], 1⟩
      (by with_unfolding_all decide),
    (C3_common_support gfT 10).2 (fun s h =>
      absurd h.2 (by rw [nControlIn_all_treated (by decide) 10 s]; omega))⟩

/-! ### Semester panel and first differences
(`02_semester_aggregation.py`, `create_delta_variables`, lines 75-97)

A `SemObs` is one gene-semester observation of the semester panel with one
outcome column `y` (each outcome `Y` is processed identically by the
source's loop, so we embed one generic column).  `create_delta_variables`
sorts by `(gene_id, semester)` and computes `D_Y = Y_t - Y_{t-1}` within
gene via `groupby('gene_id')[y].diff()`: each row's delta is its value
minus the previous row's value when that row belongs to the same gene, and
missing (`NaN`, embedded as `none`) on the first row of each gene.
-/

structure SemObs where
  gene : Nat
  sem : Int
  y : ℚ
  deriving DecidableEq, Repr

/-- Sort key of `df.sort_values(['gene_id', 'semester'])`. -/
def semKeyLE (a b : SemObs) : Prop :=
  a.gene < b.gene ∨ (a.gene = b.gene ∧ a.sem ≤ b.sem)

instance : DecidableRel semKeyLE := fun a b => by
  unfold semKeyLE; exact inferInstance

instance : IsTotal SemObs semKeyLE :=
  ⟨fun a b => by unfold semKeyLE; omega⟩

instance : IsTrans SemObs semKeyLE :=
  ⟨fun a b c hab hbc => by unfold semKeyLE at *; omega⟩

def sortPanel (l : List SemObs) : List SemObs := l.insertionSort semKeyLE


/-- Delta of one row given the previous row's `(gene, y)` (the source's
`groupby('gene_id').diff()`): defined when the previous row belongs to the
same gene, missing (`NaN`) otherwise. -/
def dOf (prev : Option (Nat × ℚ)) (r : SemObs) : Option ℚ :=
  match prev with
  | some (pg, py) => if pg = r.gene then some (r.y - py) else none
  | none => none

/-- One pass of the within-gene first difference over the sorted panel. -/
def diffPass : Option (Nat × ℚ) → List SemObs → List (SemObs × Option ℚ)
  | _, [] => []
  | prev, r :: rest => (r, dOf prev r) :: diffPass (some (r.gene, r.y)) rest

/-- Embedding of `create_delta_variables` for one outcome column: sort by
`(gene_id, semester)` (line 79) and first-difference within gene
(line 90); the result pairs each row with its `D_y` (`none` = `NaN`). -/
def create_delta_variables (l : List SemObs) : List (SemObs × Option ℚ) :=
  diffPass none (sortPanel l)

/-- The rows of one gene in the delta-augmented panel, in semester order. -/
def geneRows (l : List SemObs) (g : Nat) : List (SemObs × Option ℚ) :=
  (create_delta_variables l).filter (fun e => e.1.gene = g)

/-- Reference single-series differencing: `diff()` on one gene's rows with
an explicit previous value. -/
def singleDiff : Option ℚ → List SemObs → List (SemObs × Option ℚ)
  | _, [] => []
  | prev, r :: rest =>
    (r, prev.map (fun py => r.y - py)) :: singleDiff (some r.y) rest

def prevFor (g : Nat) : Option (Nat × ℚ) → Option ℚ
  | some (pg, py) => if pg = g then some py else none
  | none => none

theorem dOf_eq_of_gene {g : Nat} {r : SemObs} (hrg : r.gene = g) :
    ∀ prev, dOf prev r = (prevFor g prev).map (fun py => r.y - py)
  | none => rfl
  | some (pg, py) => by
    show (if pg = r.gene then some (r.y - py) else none)
      = (if pg = g then some py else none).map (fun py => r.y - py)
    by_cases hpg : pg = g
    · rw [if_pos hpg, if_pos (hpg.trans hrg.symm), Option.map_some']
    · rw [if_neg hpg, if_neg (fun hh => hpg (hh.trans hrg)), Option.map_none']

theorem diffPass_filter (g : Nat) :
    ∀ (l : List SemObs) (prev : Option (Nat × ℚ)),
      l.Pairwise (fun a b => a.gene ≤ b.gene) →
      (∀ pg py, prev = some (pg, py) → ∀ r ∈ l, pg ≤ r.gene) →
      (diffPass prev l).filter (fun e => e.1.gene = g)
        = singleDiff (prevFor g prev) (l.filter (fun r => r.gene = g)) := by
  intro l
  induction l with
  | nil => intro prev _ _; rfl
  | cons r rest ih =>
    intro prev hp hprev
    have hpair : ∀ b ∈ rest, r.gene ≤ b.gene := (List.pairwise_cons.mp hp).1
    have hrest := (List.pairwise_cons.mp hp).2
    have hih := ih (some (r.gene, r.y)) hrest
      (fun pg py hpg b hb => by
        injection hpg with h
        cases h
        exact hpair b hb)
    rw [diffPass]
    by_cases hrg : r.gene = g
    · rw [List.filter_cons, if_pos (by simpa using hrg),
        List.filter_cons, if_pos (by simpa using hrg), hih, singleDiff]
      have hpf : prevFor g (some (r.gene, r.y)) = some r.y := by
        show (if r.gene = g then some r.y else none) = some r.y
        rw [if_pos hrg]
      rw [hpf, dOf_eq_of_gene hrg prev]
    · rw [List.filter_cons, if_neg (by simpa using hrg),
        List.filter_cons, if_neg (by simpa using hrg), hih]
      have hpf : prevFor g (some (r.gene, r.y)) = none := by
        show (if r.gene = g then some r.y else none) = none
        rw [if_neg hrg]
      rw [hpf]
      rcases prev with _ | ⟨pg, py⟩
      · rfl
      · by_cases hpg : pg = g
      -- the gene-g block has already ended: no later row belongs to g
        · have hnil : rest.filter (fun b => b.gene = g) = [] := by
            apply List.filter_eq_nil_iff.mpr
            intro b hb hbg
            have h1 : pg ≤ r.gene :=
              hprev pg py rfl r (List.mem_cons_self r rest)
            have h2 : r.gene ≤ b.gene := hpair b hb
            have hbg' : b.gene = g := by simpa using hbg
            exact hrg (le_antisymm (hbg' ▸ h2) (hpg ▸ h1))
          rw [hnil]
          rfl
        · have hpf2 : prevFor g (some (pg, py)) = none := by
            show (if pg = g then some py else none) = none
            rw [if_neg hpg]
          rw [hpf2]

theorem singleDiff_length (prev : Option ℚ) (m : List SemObs) :
    (singleDiff prev m).length = m.length := by
  induction m generalizing prev with
  | nil => rfl
  | cons r rest ih => simp [singleDiff, ih]

theorem singleDiff_fst (prev : Option ℚ) (m : List SemObs) :
    (singleDiff prev m).map Prod.fst = m := by
  induction m generalizing prev with
  | nil => rfl
  | cons r rest ih => simp [singleDiff, ih]

theorem singleDiff_get_fst :
    ∀ (m : List SemObs) (prev : Option ℚ) (j : Nat) (hj : j < m.length),
      ((singleDiff prev m).get ⟨j, by rw [singleDiff_length]; exact hj⟩).1
        = m.get ⟨j, hj⟩
  | [], _, _, hj => by cases hj
  | r :: rest, prev, 0, _ => rfl
  | r :: rest, prev, Nat.succ k, hj => by
    have hih := singleDiff_get_fst rest (some r.y) k (Nat.lt_of_succ_lt_succ hj)
    simpa [singleDiff] using hih

theorem singleDiff_getElem_succ :
    ∀ (m : List SemObs) (prev : Option ℚ) (i : Nat) (h : i + 1 < m.length),
      ((singleDiff prev m).get ⟨i + 1, by rw [singleDiff_length]; exact h⟩).2
        = some ((m.get ⟨i + 1, h⟩).y - (m.get ⟨i, by omega⟩).y)
  | [], _, _, h => by cases h
  | [r], _, _, h => by simp at h
  | r :: s :: rest, prev, 0, h => by simp [singleDiff]
  | r :: s :: rest, prev, Nat.succ k, h => by
    have hih := singleDiff_getElem_succ (s :: rest) (some r.y) k
      (by simpa using Nat.lt_of_succ_lt_succ h)
    simpa [singleDiff] using hih

theorem singleDiff_sum (y0 : ℚ) :
    ∀ m : List SemObs,
      ((singleDiff (some y0) m).map (fun e => e.2.getD 0)).sum
        = ((m.getLast?.map (·.y)).getD y0) - y0
  | [] => by
    show (0 : ℚ) = ((none : Option SemObs).map (·.y)).getD y0 - y0
    simp
  | r :: rest => by
    have hexp : singleDiff (some y0) (r :: rest)
        = (r, some (r.y - y0)) :: singleDiff (some r.y) rest := by
      show (r, (some y0).map (fun py => r.y - py)) :: _ = _
      rw [Option.map_some']
    rw [hexp, List.map_cons, List.sum_cons, singleDiff_sum r.y rest]
    cases rest with
    | nil =>
      show (some (r.y - y0)).getD 0
          + ((([] : List SemObs).getLast?.map (·.y)).getD r.y - r.y)
        = (((r :: []).getLast?.map (·.y)).getD y0) - y0
      simp
    | cons s rest' =>
      rw [List.getLast?_cons_cons]
      obtain ⟨v, hv⟩ : ∃ v, (s :: rest').getLast? = some v := by
        cases hcase : (s :: rest').getLast? with
        | none => exact absurd (List.getLast?_eq_none_iff.mp hcase) (by simp)
        | some v => exact ⟨v, rfl⟩
      rw [hv]
      show (some (r.y - y0)).getD 0 + (((some v).map (·.y)).getD r.y - r.y)
        = ((some v).map (·.y)).getD y0 - y0
      simp only [Option.map_some', Option.getD_some]
      ring

theorem geneRows_eq (panel : List SemObs) (g : Nat) :
    geneRows panel g
      = singleDiff none ((sortPanel panel).filter (fun r => r.gene = g)) := by
  unfold geneRows create_delta_variables
  have hsorted : (sortPanel panel).Pairwise (fun a b => a.gene ≤ b.gene) := by
    apply List.Pairwise.imp ?_ (List.sorted_insertionSort semKeyLE panel)
    intro a b hab
    unfold semKeyLE at hab
    omega
  have hmain := diffPass_filter g (sortPanel panel) none hsorted
    (fun _ _ h => by cases h)
  simpa [prevFor] using hmain

/-- C9 — first-difference telescoping: in the delta-augmented panel, for
every gene, the first row has a missing delta (`D_Y = NaN`), every later
row's delta is its outcome minus the previous row's outcome (rows in
semester order within the gene), and the deltas from the second row on
sum to the last outcome minus the first outcome. -/
theorem C9_first_difference (panel : List SemObs) (g : Nat) :
    (∀ e, (geneRows panel g).head? = some e → e.2 = none)
    ∧ (∀ i : Nat, ∀ h : i + 1 < (geneRows panel g).length,
        ((geneRows panel g).get ⟨i + 1, h⟩).2
          = some (((geneRows panel g).get ⟨i + 1, h⟩).1.y
              - ((geneRows panel g).get ⟨i, by omega⟩).1.y))
    ∧ (geneRows panel g ≠ [] →
        (((geneRows panel g).tail).map (fun e => e.2.getD 0)).sum
          = (((geneRows panel g).getLast?.map (fun e => e.1.y)).getD 0)
            - (((geneRows panel g).head?.map (fun e => e.1.y)).getD 0)) := by
  rw [geneRows_eq]
  generalize (sortPanel panel).filter (fun r => r.gene = g) = m
  refine ⟨?_, ?_, ?_⟩
  · intro e he
    cases m with
    | nil => cases he
    | cons r rest =>
      have hh : (singleDiff none (r :: rest)).head? = some (r, none) := rfl
      rw [hh] at he
      injection he with he'
      rw [← he']
  · intro i h
    have hlen : i + 1 < m.length := by
      have h' := h
      rwa [singleDiff_length] at h'
    rw [singleDiff_getElem_succ m none i hlen,
      singleDiff_get_fst m none (i + 1) hlen,
      singleDiff_get_fst m none i (by omega)]
  · intro hne
    cases m with
    | nil => exact absurd rfl hne
    | cons r rest =>
      have hexp0 : singleDiff (none : Option ℚ) (r :: rest)
          = (r, none) :: singleDiff (some r.y) rest := rfl
      rw [hexp0, List.tail_cons, singleDiff_sum r.y rest, List.head?_cons]
      cases rest with
      | nil =>
        show ((([] : List SemObs).getLast?.map (·.y)).getD r.y) - r.y
          = (((r, (none : Option ℚ)) :: singleDiff (some r.y) []).getLast?.map
              (fun e => e.1.y)).getD 0
            - ((some (r, (none : Option ℚ))).map (fun e => e.1.y)).getD 0
        simp [singleDiff]
      | cons s rest' =>
        obtain ⟨v, hv⟩ : ∃ v, (s :: rest').getLast? = some v := by
          cases hcase : (s :: rest').getLast? with
          | none => exact absurd (List.getLast?_eq_none_iff.mp hcase) (by simp)
          | some v => exact ⟨v, rfl⟩
        rw [hv]
        have hexp : singleDiff (some r.y) (s :: rest')
            = (s, some (s.y - r.y)) :: singleDiff (some s.y) rest' := by
          rw [singleDiff, Option.map_some']
        rw [hexp, List.getLast?_cons_cons]
        obtain ⟨e, he, hev⟩ : ∃ e,
            ((s, some (s.y - r.y)) :: singleDiff (some s.y) rest').getLast?
              = some e ∧ e.1 = v := by
          have hmapLast : (((s, some (s.y - r.y))
              :: singleDiff (some s.y) rest').map Prod.fst).getLast?
                = (s :: rest').getLast? := by
            rw [List.map_cons]
            show ((s :: (singleDiff (some s.y) rest').map Prod.fst)).getLast? = _
            rw [singleDiff_fst]
          rw [List.getLast?_map, hv] at hmapLast
          cases hcase : ((s, some (s.y - r.y))
              :: singleDiff (some s.y) rest').getLast? with
          | none => rw [hcase] at hmapLast; cases hmapLast
          | some e =>
            rw [hcase] at hmapLast
            refine ⟨e, rfl, ?_⟩
            injection hmapLast
        rw [he]
        show v.y - r.y = (some e.1.y).getD 0 - (some r.y).getD 0
        rw [hev]
        rfl

/-- Concrete semester panel for the C9 witness: gene 1 has semesters
0, 1, 2 with outcomes 1, 3, 7 (interleaved with rows of gene 2). -/
def panelC9 : List SemObs :=
  [⟨2, 0, 5⟩, ⟨1, 1, 3⟩, ⟨1, 0, 1⟩, ⟨1, 2, 7⟩, ⟨2, 1, 2⟩]

theorem C9_witness :
    geneRows panelC9 1 ≠ [] ∧
      ((geneRows panelC9 1).get ⟨0 + 1, by with_unfolding_all decide⟩).2
        = some (((geneRows panelC9 1).get
              ⟨0 + 1, by with_unfolding_all decide⟩).1.y
            - ((geneRows panelC9 1).get ⟨0, by with_unfolding_all decide⟩).1.y)
      ∧ (((geneRows panelC9 1).tail).map (fun e => e.2.getD 0)).sum
        = (((geneRows panelC9 1).getLast?.map (fun e => e.1.y)).getD 0)
          - (((geneRows panelC9 1).head?.map (fun e => e.1.y)).getD 0) :=
  ⟨by with_unfolding_all decide,
    (C9_first_difference panelC9 1).2.1 0 (by with_unfolding_all decide),
    (C9_first_difference panelC9 1).2.2 (by with_unfolding_all decide)⟩

/-! ### Event-study estimators (`03_event_study.py`)

An `SRow` is one row of the semester panel as seen by the estimators:
`relSem` is `rel_semester`, `semester` the calendar semester (used only
for the time fixed effect of the OLS estimator), `weight` the
`cem_weight`, and `y` the outcome column under study (`none` = `NaN`,
dropped by `df.dropna(subset=[outcome])`).

External components are modelled as explicit parameters:
* the fitted regression `sm.OLS(y_weighted, X_with_const).fit(cov_type=
  'cluster', ...)` of the fixed-effects estimator is a function `solver`
  from the demeaned design matrix, demeaned outcome, weights and cluster
  groups to `none` (the `except` branch) or the pair (params, bse) of the
  fitted coefficient and standard-error sequences, whose heads belong to
  the added constant and are dropped by `params[1:]`/`bse[1:]` (the source
  multiplies the design and outcome by `sqrt(weight)` before the call; the
  abstract `solver` receives the weights unscaled and may perform that
  scaling internally, which is irrelevant to every property proved here);
* `np.random.choice(genes, size=len(genes), replace=True)` is a stream
  `rng : Int → Nat → Nat → Nat` giving, for each period, bootstrap
  replicate and draw position, the index of the drawn gene (taken modulo
  the number of genes, so every function is a valid realization).
-/

structure SRow where
  gene : Nat
  semester : Int
  relSem : Int
  treated : Bool
  weight : ℚ
  y : Option ℚ
  deriving DecidableEq, Repr

/-- Rows with a non-missing outcome: `df.dropna(subset=[outcome])`. -/
def dropna (df : List SRow) : List SRow := df.filter (fun r => r.y.isSome)

def yval (r : SRow) : ℚ := r.y.getD 0

/-- Weighted mean `np.average(values, weights=w)`. -/
def wavg (l : List SRow) : ℚ :=
  ((l.map (fun r => r.weight * yval r)).sum) / ((l.map (·.weight)).sum)

/-- The squared `np.std` (population variance, `ddof = 0`); the reported
standard error is its square root. -/
def varQ (l : List ℚ) : ℚ :=
  ((l.map (fun x => (x - meanQ l) ^ 2)).sum) / l.length

/-- Python `sorted(df['rel_semester'].unique())` after dropping missing
outcomes. -/
def periodsOf (df1 : List SRow) : List Int :=
  sortedUniqueInt (df1.map (·.relSem))

/-- Rows of period `k` on the treated arm:
`df[(df['rel_semester'] == k) & (df['treated'] == 1)]`. -/
def tkOf (df1 : List SRow) (k : Int) : List SRow :=
  df1.filter (fun r => r.relSem = k ∧ r.treated = true)

/-- Rows of period `k` on the control arm. -/
def ckOf (df1 : List SRow) (k : Int) : List SRow :=
  df1.filter (fun r => r.relSem = k ∧ r.treated = false)

/-- The base-period gap `base_diff` (lines 176-179). -/
def baseDiffOf (df1 : List SRow) (basePeriod : Int) : ℚ :=
  wavg (tkOf df1 basePeriod) - wavg (ckOf df1 basePeriod)

/-- The drawn gene list of one bootstrap replicate:
`np.random.choice(genes, size=len(genes), replace=True)` realized by the
index stream `rng`. -/
def drawFrom (genes : List Nat) (rng : Nat → Nat) : List Nat :=
  (List.range genes.length).map (fun j => genes.getD (rng j % genes.length) 0)

/-- One bootstrap replicate's statistic (lines 202-214).  The resampled
rows are `treated_k[treated_k['gene_id'].isin(boot_genes_t)]`: membership
filtering, so a gene drawn several times still contributes its rows once.
The replicate is kept only when both resampled sides are nonempty. -/
def bootStat (baseDiff : ℚ) (tk ck : List SRow) (drawT drawC : List Nat) :
    Option ℚ :=
  if (tk.filter (fun r => r.gene ∈ drawT)) ≠ []
      ∧ (ck.filter (fun r => r.gene ∈ drawC)) ≠ [] then
    some ((wavg (tk.filter (fun r => r.gene ∈ drawT))
      - wavg (ck.filter (fun r => r.gene ∈ drawC))) - baseDiff)
  else none

/-- Modelled from the spec (claim C4): the replicate statistic of a true
with-replacement bootstrap, in which a gene drawn with multiplicity `m`
contributes its rows `m` times. -/
def bootStatResampled (baseDiff : ℚ) (tk ck : List SRow)
    (drawT drawC : List Nat) : Option ℚ :=
  if (drawT.flatMap (fun gid => tk.filter (fun r => r.gene = gid))) ≠ []
      ∧ (drawC.flatMap (fun gid => ck.filter (fun r => r.gene = gid))) ≠ [] then
    some ((wavg (drawT.flatMap (fun gid => tk.filter (fun r => r.gene = gid)))
      - wavg (drawC.flatMap (fun gid => ck.filter (fun r => r.gene = gid))))
      - baseDiff)
  else none

/-- The list of kept replicate statistics for period `k` (200 replicates,
`n_boot = 200`, line 198). -/
def bootsOf (df1 : List SRow) (basePeriod k : Int)
    (rngT rngC : Int → Nat → Nat → Nat) : List ℚ :=
  (List.range 200).filterMap (fun rep =>
    bootStat (baseDiffOf df1 basePeriod) (tkOf df1 k) (ckOf df1 k)
      (drawFrom (uniqueFirst ((tkOf df1 k).map (·.gene))) (rngT k rep))
      (drawFrom (uniqueFirst ((ckOf df1 k).map (·.gene))) (rngC k rep)))

/-- `np.std(boot_coefs) if boot_coefs else 0.0`, squared (line 216). -/
def seSqOf (df1 : List SRow) (basePeriod k : Int)
    (rngT rngC : Int → Nat → Nat → Nat) : ℚ :=
  if bootsOf df1 basePeriod k rngT rngC = [] then 0
  else varQ (bootsOf df1 basePeriod k rngT rngC)

/-- Result row of the pairwise estimator.  `seSq` is the square of the
reported bootstrap standard error (`seOf` below takes the root); the
reported confidence bounds are `coef ∓ 1.96·se` (`ciLowOf`/`ciHighOf`). -/
structure EventRowB where
  period : Int
  coef : ℚ
  seSq : ℚ
  nTreated : Nat
  nControl : Nat
  deriving DecidableEq, Repr

noncomputable def seOf (r : EventRowB) : ℝ := Real.sqrt (r.seSq : ℝ)

noncomputable def ciLowOf (r : EventRowB) : ℝ := (r.coef : ℝ) - 1.96 * seOf r

noncomputable def ciHighOf (r : EventRowB) : ℝ := (r.coef : ℝ) + 1.96 * seOf r

/-- One period's entry of the result table (loop body, lines 182-226):
skipped when a treatment arm is absent, coefficient forced to 0 at the
base period (line 195), bootstrap standard error computed for every kept
period — including the base period. -/
def simpleRow (df1 : List SRow) (basePeriod : Int)
    (rngT rngC : Int → Nat → Nat → Nat) (k : Int) : Option EventRowB :=
  if tkOf df1 k = [] ∨ ckOf df1 k = [] then none
  else some
    { period := k
      coef := if k = basePeriod then 0
        else (wavg (tkOf df1 k) - wavg (ckOf df1 k)) - baseDiffOf df1 basePeriod
      seSq := seSqOf df1 basePeriod k rngT rngC
      nTreated := (tkOf df1 k).length
      nControl := (ckOf df1 k).length }

def sortRowsB (l : List EventRowB) : List EventRowB :=
  l.insertionSort (fun a b => a.period ≤ b.period)

/-- Embedding of `run_event_study_simple(df, outcome, weight_col,
base_period)` (lines 150-228): drop missing outcomes; return `None` when
nothing remains or when the base period lacks a treated or a control row;
otherwise produce one row per period having both arms, sorted by period. -/
def run_event_study_simple (df : List SRow) (basePeriod : Int)
    (rngT rngC : Int → Nat → Nat → Nat) : Option (List EventRowB) :=
  if dropna df = [] then none
  else if tkOf (dropna df) basePeriod = [] ∨ ckOf (dropna df) basePeriod = []
    then none
  else some (sortRowsB ((periodsOf (dropna df)).filterMap
    (simpleRow (dropna df) basePeriod rngT rngC)))

/-- Result row of the fixed-effects WLS estimator (all fields are exactly
the reported numbers; the abstract solver returns rational params/bse). -/
structure EventRowQ where
  period : Int
  coef : ℚ
  se : ℚ
  ciLow : ℚ
  ciHigh : ℚ
  deriving DecidableEq, Repr

/-- Two-way within transformation (lines 80-98):
`x - mean_by_gene(x) - mean_by_semester(x) + overall_mean(x)`. -/
def demean (df1 : List SRow) (f : SRow → ℚ) (r : SRow) : ℚ :=
  f r - meanQ ((df1.filter (fun q => q.gene = r.gene)).map f)
    - meanQ ((df1.filter (fun q => q.semester = r.semester)).map f)
    + meanQ (df1.map f)

/-- The `treated_i × 1[rel_sem = k]` interaction dummy (line 68). -/
def indVal (k : Int) (r : SRow) : ℚ :=
  if r.treated = true ∧ r.relSem = k then 1 else 0

def nonbasePeriods (df1 : List SRow) (basePeriod : Int) : List Int :=
  (periodsOf df1).filter (fun k => k ≠ basePeriod)

/-- The demeaned design matrix (one row per panel row, one column per
non-base period). -/
def designX (df1 : List SRow) (basePeriod : Int) : List (List ℚ) :=
  df1.map (fun r => (nonbasePeriods df1 basePeriod).map
    (fun k => demean df1 (indVal k) r))

def designY (df1 : List SRow) : List ℚ := df1.map (demean df1 yval)

/-- Assembly of the OLS result table (lines 126-145): one row per
non-base period with `ci = coef ∓ 1.96·se`, plus the base-period row
appended with all four numbers written as literal zeros, sorted by
period. -/
def olsRows (basePeriod : Int) (nonbase : List Int) (coefs ses : List ℚ) :
    List EventRowQ :=
  (nonbase.zip (List.range nonbase.length)).map (fun p =>
    { period := p.1
      coef := coefs.getD p.2 0
      se := ses.getD p.2 0
      ciLow := coefs.getD p.2 0 - 1.96 * ses.getD p.2 0
      ciHigh := coefs.getD p.2 0 + 1.96 * ses.getD p.2 0 })
  ++ [{ period := basePeriod, coef := 0, se := 0, ciLow := 0, ciHigh := 0 }]

def sortRowsQ (l : List EventRowQ) : List EventRowQ :=
  l.insertionSort (fun a b => a.period ≤ b.period)

/-- Embedding of `run_event_study_ols(df, outcome, weight_col,
base_period)` (lines 47-147): drop missing outcomes (`None` when nothing
remains), build and demean the interaction dummies, hand the design to
the abstract clustered-WLS `solver` (`None` when it fails — the `except`
branch), drop the constant's entries, and assemble the result table with
the base period fixed at zeros. -/
def run_event_study_ols (df : List SRow) (basePeriod : Int)
    (solver : List (List ℚ) → List ℚ → List ℚ → List Nat →
      Option (List ℚ × List ℚ)) : Option (List EventRowQ) :=
  if dropna df = [] then none
  else
    match solver (designX (dropna df) basePeriod) (designY (dropna df))
        ((dropna df).map (·.weight)) ((dropna df).map (·.gene)) with
    | none => none
    | some (params, bse) =>
      some (sortRowsQ (olsRows basePeriod
        (nonbasePeriods (dropna df) basePeriod) params.tail bse.tail))

/-- C1 — amended base-period normalization: whenever the fixed-effects
estimator returns a result table, its (unique) base-period row has
coefficient, standard error and both confidence bounds written as exact
zeros; in the pairwise estimator only the base-period coefficient is
forced to 0 — its standard error is the bootstrap standard deviation at
the base period, which the code does not zero out (the counterexample
exhibits a run reporting a nonzero base-period SE and CI). -/
theorem C1_amended :
    (∀ (df : List SRow) (basePeriod : Int)
        (solver : List (List ℚ) → List ℚ → List ℚ → List Nat →
          Option (List ℚ × List ℚ)) (rows : List EventRowQ),
        run_event_study_ols df basePeriod solver = some rows →
        ((∃ r ∈ rows, r.period = basePeriod ∧ r.coef = 0 ∧ r.se = 0
            ∧ r.ciLow = 0 ∧ r.ciHigh = 0)
          ∧ ∀ r ∈ rows, r.period = basePeriod →
              r.coef = 0 ∧ r.se = 0 ∧ r.ciLow = 0 ∧ r.ciHigh = 0))
    ∧ (∀ (df : List SRow) (basePeriod : Int)
        (rngT rngC : Int → Nat → Nat → Nat) (rows : List EventRowB),
        run_event_study_simple df basePeriod rngT rngC = some rows →
        ∀ r ∈ rows, r.period = basePeriod → r.coef = 0) := by
  constructor
  · intro df basePeriod solver rows h
    unfold run_event_study_ols at h
    split at h
    · cases h
    · split at h
      · cases h
      · injection h with h
        subst h
        constructor
        · refine ⟨⟨basePeriod, 0, 0, 0, 0⟩, ?_, rfl, rfl, rfl, rfl, rfl⟩
          unfold sortRowsQ
          rw [List.mem_insertionSort]
          unfold olsRows
          exact List.mem_append_right _ (List.mem_singleton.mpr rfl)
        · intro r hr hrp
          unfold sortRowsQ at hr
          rw [List.mem_insertionSort] at hr
          unfold olsRows at hr
          rcases List.mem_append.mp hr with hmem | hmem
          · rcases List.mem_map.mp hmem with ⟨p, hp, rfl⟩
            have hk := (List.of_mem_zip hp).1
            have hne : p.1 ≠ basePeriod := by
              have hfil := (List.mem_filter.mp hk).2
              simpa using hfil
            exact absurd hrp hne
          · have hb := List.mem_singleton.mp hmem
            subst hb
            exact ⟨rfl, rfl, rfl, rfl⟩
  · intro df basePeriod rngT rngC rows h
    unfold run_event_study_simple at h
    split at h
    · cases h
    · split at h
      · cases h
      · injection h with h
        subst h
        intro r hr hrp
        unfold sortRowsB at hr
        rw [List.mem_insertionSort] at hr
        rcases List.mem_filterMap.mp hr with ⟨k, _, hrow⟩
        unfold simpleRow at hrow
        split at hrow
        · cases hrow
        · injection hrow with hrow
          subst hrow
          have hk : k = basePeriod := hrp
          show (if k = basePeriod then (0 : ℚ)
            else (wavg (tkOf (dropna df) k) - wavg (ckOf (dropna df) k))
              - baseDiffOf (dropna df) basePeriod) = 0
          rw [if_pos hk]

/-- Panel realizing the C1 counterexample: three genes at the base period
only, the two treated genes with different outcomes (0 and 4), so the
bootstrap statistic at the base period varies across replicates. -/
def panelC1 : List SRow :=
  [⟨1, -1, -1, true, 1, some 0⟩, ⟨2, -1, -1, true, 1, some 4⟩,
   ⟨3, -1, -1, false, 1, some 0⟩]

/-- RNG realization for the C1 counterexample: replicate `rep` draws the
treated gene of index `rep % 2` twice, so the 200 replicate statistics
alternate between -2 and 2 and their standard deviation is 2. -/
def crng : Int → Nat → Nat → Nat := fun _ rep _ => rep

/-- The base-period row the pairwise estimator reports on `panelC1` with
`crng`: coefficient 0 but squared bootstrap SE 4. -/
def rowC1 : EventRowB := ⟨-1, 0, 4, 2, 1⟩

/-- C1 — counterexample: on `panelC1` with the realization `crng`, the
pairwise estimator's base-period row has coefficient 0 but squared
bootstrap SE 4; the reported standard error `√4 = 2` and confidence bound
`0 - 1.96·2` are not 0, contradicting the claim that the base-period row
of `run_event_study_simple` has SE and CI exactly 0. -/
theorem C1_counterexample :
    run_event_study_simple panelC1 (-1) crng crng = some [rowC1]
      ∧ seOf rowC1 ≠ 0
      ∧ ciLowOf rowC1 ≠ 0 := by
  have hs : Real.sqrt (((4 : ℚ) : ℝ)) = 2 := by
    rw [show (((4 : ℚ) : ℝ)) = (2 : ℝ) ^ 2 by norm_num]
    exact Real.sqrt_sq (by norm_num)
  refine ⟨by with_unfolding_all decide, ?_, ?_⟩
  · show Real.sqrt (((4 : ℚ) : ℝ)) ≠ 0
    rw [hs]
    norm_num
  · show (((0 : ℚ) : ℝ)) - 1.96 * Real.sqrt (((4 : ℚ) : ℝ)) ≠ 0
    rw [hs]
    norm_num

/-- Concrete inputs for the C1 witness: a two-period panel and a constant
solver that reports params `[0, 5]` and bse `[0, 7]` (constant first). -/
def dfO : List SRow :=
  [⟨1, 0, -1, true, 1, some 1⟩, ⟨2, 0, -1, false, 1, some 2⟩,
   ⟨1, 1, 0, true, 1, some 3⟩, ⟨2, 1, 0, false, 1, some 1⟩]

def solver0 : List (List ℚ) → List ℚ → List ℚ → List Nat →
    Option (List ℚ × List ℚ) := fun _ _ _ _ => some ([0, 5], [0, 7])

def olsRowsW : List EventRowQ :=
  [{ period := -1, coef := 0, se := 0, ciLow := 0, ciHigh := 0 },
   { period := 0, coef := 5, se := 7, ciLow := -218/25, ciHigh := 468/25 }]

theorem C1_witness :
    ((∃ r ∈ olsRowsW, r.period = -1 ∧ r.coef = 0 ∧ r.se = 0
        ∧ r.ciLow = 0 ∧ r.ciHigh = 0)
      ∧ ∀ r ∈ olsRowsW, r.period = -1 →
          r.coef = 0 ∧ r.se = 0 ∧ r.ciLow = 0 ∧ r.ciHigh = 0)
    ∧ (∀ r ∈ [rowC1], r.period = -1 → r.coef = 0) :=
  ⟨C1_amended.1 dfO (-1) solver0 olsRowsW (by with_unfolding_all decide),
    C1_amended.2 panelC1 (-1) crng crng _ (by with_unfolding_all decide)⟩

/-- Treated rows for the C4 evaluation: genes 1, 2, 3 with outcomes
0, 4, 8 and unit weights. -/
def tkC4 : List SRow :=
  [⟨1, 0, 0, true, 1, some 0⟩, ⟨2, 0, 0, true, 1, some 4⟩,
   ⟨3, 0, 0, true, 1, some 8⟩]

def ckC4 : List SRow := [⟨4, 0, 0, false, 1, some 0⟩]

/-- C4 — evaluation at the failing replicate: when a replicate draws the
treated ids `[1, 1, 2]` (gene 1 twice), the code's `isin` membership
filter keeps each drawn gene's rows once, giving the statistic
`(0+4)/2 = 2`; the claim's with-replacement bootstrap, in which gene 1
contributes with multiplicity 2, gives `(0+0+4)/3 = 4/3`. -/
theorem C4_bootstrap_dedup :
    bootStat 0 tkC4 ckC4 [1, 1, 2] [4] = some 2
      ∧ bootStatResampled 0 tkC4 ckC4 [1, 1, 2] [4] = some (4 / 3)
      ∧ (2 : ℚ) ≠ 4 / 3 :=
  ⟨by with_unfolding_all decide, by with_unfolding_all decide, by norm_num⟩

/-- The sanity-scenario panel of C8: a treated gene with outcomes
`[2,2,2,6]` and a control gene constant at 2 over relative periods
`[-2,-1,0,1]`, unit weights. -/
def panel8 : List SRow :=
  [⟨1, -2, -2, true, 1, some 2⟩, ⟨1, -1, -1, true, 1, some 2⟩,
   ⟨1, 0, 0, true, 1, some 2⟩, ⟨1, 1, 1, true, 1, some 6⟩,
   ⟨2, -2, -2, false, 1, some 2⟩, ⟨2, -1, -1, false, 1, some 2⟩,
   ⟨2, 0, 0, false, 1, some 2⟩, ⟨2, 1, 1, false, 1, some 2⟩]

/-- C8 — pairwise estimator sanity scenario: on `panel8` with base period
-1 the estimator returns coefficients 0, 0 (base), 0, 4 at periods
-2, -1, 0, 1, for every realization of the bootstrap's random draws
(the coefficients do not depend on the RNG). -/
theorem C8_pairwise_sanity (rngT rngC : Int → Nat → Nat → Nat) :
    (run_event_study_simple panel8 (-1) rngT rngC).map
      (fun rows => rows.map (fun r => (r.period, r.coef)))
    = some [(-2, 0), (-1, 0), (0, 0), (1, 4)] := by
  with_unfolding_all rfl

/-- C10 — implicit base-period precondition: if, after dropping missing
outcomes, the base period has no treated row or no control row, the
pairwise estimator returns `none` for the whole outcome — it does not
skip the base period and report the remaining periods. -/
theorem C10_base_period_required (df : List SRow) (basePeriod : Int)
    (rngT rngC : Int → Nat → Nat → Nat)
    (h : tkOf (dropna df) basePeriod = [] ∨ ckOf (dropna df) basePeriod = []) :
    run_event_study_simple df basePeriod rngT rngC = none := by
  unfold run_event_study_simple
  by_cases hdf : dropna df = []
  · rw [if_pos hdf]
  · rw [if_neg hdf, if_pos h]

def rng0 : Int → Nat → Nat → Nat := fun _ _ _ => 0

/-- Panel for the C10 witness: the base period -1 has a treated row but
no control row, while period 0 has both arms. -/
def dfC10 : List SRow :=
  [⟨1, -1, -1, true, 1, some 1⟩, ⟨1, 0, 0, true, 1, some 2⟩,
   ⟨2, 0, 0, false, 1, some 3⟩]

theorem C10_witness :
    tkOf (dropna dfC10) 0 ≠ [] ∧ ckOf (dropna dfC10) 0 ≠ [] ∧
      run_event_study_simple dfC10 (-1) rng0 rng0 = none :=
  ⟨by decide, by decide,
    C10_base_period_required dfC10 (-1) rng0 rng0 (Or.inr (by decide))⟩

end AFC
